import Mathlib

/-!
Verification of the `sage` commit-message generator's core pipeline.

Strings are modelled as `List Char` (Unicode scalar values); Rust byte
lengths are recovered through the UTF-8 width of each scalar.  Fallible
Rust code (a byte-slice that can panic on a char boundary) is modelled
with `Option`; the provider gateways return `Except SageError`.
-/

/-- Unicode `White_Space` code points: the set matched both by Rust's
`char::is_whitespace` and by the `\s` class of the `regex` crate. -/
def isWS (c : Char) : Bool :=
  c.toNat = 0x9 || c.toNat = 0xA || c.toNat = 0xB || c.toNat = 0xC ||
  c.toNat = 0xD || c.toNat = 0x20 || c.toNat = 0x85 || c.toNat = 0xA0 ||
  c.toNat = 0x1680 || (0x2000 ≤ c.toNat && c.toNat ≤ 0x200A) ||
  c.toNat = 0x2028 || c.toNat = 0x2029 || c.toNat = 0x202F ||
  c.toNat = 0x205F || c.toNat = 0x3000

/-- Drop the longest suffix of characters satisfying `p` (the tail half of
Rust's `str::trim`). -/
def dropTrailingIf (p : Char → Bool) : List Char → List Char
  | [] => []
  | c :: rest =>
    match dropTrailingIf p rest with
    | [] => if p c then [] else [c]
    | x :: r => c :: x :: r

/-- Rust `str::trim`: remove leading and trailing `White_Space`. -/
def rustTrim (s : List Char) : List Char :=
  dropTrailingIf isWS (s.dropWhile isWS)

/-- The backtick character, U+0060. -/
def btick : Char := '\x60'

/-- A word character as matched by the code-fence regex's `\w`
(the language tag of a fenced block; modelled by the ASCII word
characters, which cover the language tags that occur in practice). -/
def isWordChar (c : Char) : Bool :=
  (0x61 ≤ c.toNat && c.toNat ≤ 0x7A) || (0x41 ≤ c.toNat && c.toNat ≤ 0x5A) ||
  (0x30 ≤ c.toNat && c.toNat ≤ 0x39) || c.toNat = 0x5F

/-- Split a string at its first run of three consecutive backticks:
`splitTicks s = some (before, after)` with
`s = before ++ [btick, btick, btick] ++ after` and no triple backtick
starting inside `before`. -/
def splitTicks : List Char → Option (List Char × List Char)
  | c1 :: c2 :: c3 :: rest =>
    if c1 = btick ∧ c2 = btick ∧ c3 = btick then some ([], rest)
    else (splitTicks (c2 :: c3 :: rest)).map (fun p => (c1 :: p.1, p.2))
  | _ => none

/-- First pass of `sanitize_commit_message`
(src/ai/mod.rs: `Regex::new(r"```\w*\s*([\s\S]*?)\s*```")` and
`captures`): when the text holds a fenced code block, replace the whole
text by the block's inner content, trimmed.  The regex's first match
starts at the first triple backtick; `\w*` (greedy) then takes the whole
word run (the language tag), `\s*` (greedy) the whole whitespace run
after it, and the lazy group ends at the next triple backtick, with the
trailing whitespace run eaten by the second `\s*` — which the final
`.trim()` of the Rust code subsumes, so the model trims the raw prefix. -/
def codeBlockPass (s : List Char) : List Char :=
  match splitTicks s with
  | none => s
  | some (_, u) =>
    match splitTicks ((u.dropWhile isWordChar).dropWhile isWS) with
    | none => s
    | some (g, _) => rustTrim g

/-- Split at the first occurrence of the character `d`:
`breakAt d xs = some (run, t)` with `xs = run ++ d :: t` and `d ∉ run`. -/
def breakAt (d : Char) : List Char → Option (List Char × List Char)
  | [] => none
  | x :: xs => if x = d then some ([], xs)
               else (breakAt d xs).map (fun p => (x :: p.1, p.2))

theorem breakAt_eq {d : Char} {xs run t : List Char}
    (h : breakAt d xs = some (run, t)) : xs = run ++ d :: t := by
  induction xs generalizing run with
  | nil => simp [breakAt] at h
  | cons x xs ih =>
    by_cases hx : x = d
    · simp only [breakAt, if_pos hx, Option.some.injEq, Prod.mk.injEq] at h
      simp [← h.1, ← h.2, hx]
    · simp only [breakAt, if_neg hx, Option.map_eq_some'] at h
      obtain ⟨⟨r', t'⟩, hp, h1⟩ := h
      simp only [Prod.mk.injEq] at h1
      obtain ⟨h1, h2⟩ := h1
      subst h2
      simp [← h1, ih hp]

theorem breakAt_length {d : Char} {xs run t : List Char}
    (h : breakAt d xs = some (run, t)) :
    xs.length = run.length + 1 + t.length := by
  have := breakAt_eq h
  subst this
  simp
  omega

/-- After an opening double delimiter `d d`, try to close a bold span
in `rest2`: succeeds when `rest2 = run ++ [d, d] ++ t2` with `run`
nonempty and free of `d` (the regex body `([^*]+)` or `([^_]+)` followed
by the closing double delimiter). -/
def boldClose (d : Char) (rest2 : List Char) : Option (List Char × List Char) :=
  match breakAt d rest2 with
  | some (run, c3 :: t2) => if run ≠ [] ∧ c3 = d then some (run, t2) else none
  | _ => none

theorem boldClose_length {d : Char} {rest2 run t2 : List Char}
    (h : boldClose d rest2 = some (run, t2)) :
    rest2.length = run.length + 2 + t2.length := by
  unfold boldClose at h
  split at h
  · rename_i r c3 t hbr
    split at h
    · simp only [Option.some.injEq, Prod.mk.injEq] at h
      obtain ⟨h1, h2⟩ := h
      subst h1; subst h2
      have := breakAt_length hbr
      simp at this ⊢
      omega
    · simp at h
  · simp at h

/-- Second pass (the `bold_re` regex `\*\*([^*]+)\*\*|__([^_]+)__`,
replaced by `$1$2` with `replace_all`): scan left to right; at a double
delimiter, a nonempty run of non-delimiter characters closed by the same
double delimiter is replaced by the run; otherwise the scan moves one
character forward, exactly as the regex engine's leftmost-first search
does. -/
def boldScan (s : List Char) : List Char :=
  match s with
  | [] => []
  | c :: rest =>
    if c = '*' then
      match rest with
      | c2 :: rest2 =>
        if c2 = '*' then
          match hbc : boldClose '*' rest2 with
          | some (run, t2) => run ++ boldScan t2
          | none => '*' :: boldScan (c2 :: rest2)
        else '*' :: boldScan (c2 :: rest2)
      | [] => ['*']
    else if c = '_' then
      match rest with
      | c2 :: rest2 =>
        if c2 = '_' then
          match hbc : boldClose '_' rest2 with
          | some (run, t2) => run ++ boldScan t2
          | none => '_' :: boldScan (c2 :: rest2)
        else '_' :: boldScan (c2 :: rest2)
      | [] => ['_']
    else c :: boldScan rest
  termination_by s.length
  decreasing_by
  all_goals simp
  all_goals try omega
  all_goals have hlen := boldClose_length hbc
  all_goals omega

/-- A single-delimiter emphasis/code pass (the regexes `\*([^*]+)\*`,
`_([^_]+)_` and the backtick analogue, replaced by `$1` with
`replace_all`): at a delimiter, a nonempty run of non-delimiter
characters closed by the same delimiter is replaced by the run;
otherwise the scan moves one character forward. -/
def spanScan (d : Char) (s : List Char) : List Char :=
  match s with
  | [] => []
  | c :: rest =>
    if c = d then
      match hbr : breakAt d rest with
      | some (run, t) =>
        match run with
        | [] => c :: spanScan d rest
        | _ :: _ => run ++ spanScan d t
      | none => c :: spanScan d rest
    else c :: spanScan d rest
  termination_by s.length
  decreasing_by
  all_goals simp
  all_goals try omega
  all_goals have hlen := breakAt_length hbr
  all_goals simp_all
  all_goals omega

/-! Unfolding equations for `boldScan` and `spanScan`, stated so that
later proofs and concrete evaluations never have to reduce the
well-founded recursion directly. -/

theorem boldScan_nil : boldScan [] = [] := by
  rw [boldScan]

theorem boldScan_single_star : boldScan ['*'] = ['*'] := by
  rw [boldScan]
  simp only [Char.reduceEq, reduceIte]

theorem boldScan_single_und : boldScan ['_'] = ['_'] := by
  rw [boldScan]
  simp only [Char.reduceEq, reduceIte]

theorem boldScan_star_some {rest2 run t2 : List Char}
    (hbc : boldClose '*' rest2 = some (run, t2)) :
    boldScan ('*' :: '*' :: rest2) = run ++ boldScan t2 := by
  rw [boldScan]
  simp only [Char.reduceEq, reduceIte]
  split
  · rename_i run' t2' heq
    rw [hbc] at heq
    cases heq
    rfl
  · rename_i heq
    rw [hbc] at heq
    simp at heq

theorem boldScan_star_none {rest2 : List Char}
    (hbc : boldClose '*' rest2 = none) :
    boldScan ('*' :: '*' :: rest2) = '*' :: boldScan ('*' :: rest2) := by
  rw [boldScan]
  simp only [Char.reduceEq, reduceIte]
  split
  · rename_i run' t2' heq
    rw [hbc] at heq
    simp at heq
  · rfl

theorem boldScan_star_other {c2 : Char} {rest2 : List Char} (h : c2 ≠ '*') :
    boldScan ('*' :: c2 :: rest2) = '*' :: boldScan (c2 :: rest2) := by
  rw [boldScan]
  simp [h]

theorem boldScan_und_some {rest2 run t2 : List Char}
    (hbc : boldClose '_' rest2 = some (run, t2)) :
    boldScan ('_' :: '_' :: rest2) = run ++ boldScan t2 := by
  rw [boldScan]
  simp only [Char.reduceEq, reduceIte]
  split
  · rename_i run' t2' heq
    rw [hbc] at heq
    cases heq
    rfl
  · rename_i heq
    rw [hbc] at heq
    simp at heq

theorem boldScan_und_none {rest2 : List Char}
    (hbc : boldClose '_' rest2 = none) :
    boldScan ('_' :: '_' :: rest2) = '_' :: boldScan ('_' :: rest2) := by
  rw [boldScan]
  simp only [Char.reduceEq, reduceIte]
  split
  · rename_i run' t2' heq
    rw [hbc] at heq
    simp at heq
  · rfl

theorem boldScan_und_other {c2 : Char} {rest2 : List Char} (h : c2 ≠ '_') :
    boldScan ('_' :: c2 :: rest2) = '_' :: boldScan (c2 :: rest2) := by
  rw [boldScan]
  simp [h]

theorem boldScan_other {x : Char} {r : List Char} (hx : x ≠ '*')
    (hx2 : x ≠ '_') : boldScan (x :: r) = x :: boldScan r := by
  rw [boldScan.eq_def]
  simp [hx, hx2]

theorem spanScan_nil {d : Char} : spanScan d [] = [] := by
  rw [spanScan]

theorem spanScan_other {d x : Char} {r : List Char} (hx : x ≠ d) :
    spanScan d (x :: r) = x :: spanScan d r := by
  rw [spanScan]
  simp [hx]

theorem spanScan_delim_none {d : Char} {rest : List Char}
    (hbr : breakAt d rest = none) :
    spanScan d (d :: rest) = d :: spanScan d rest := by
  rw [spanScan]
  simp only [eq_self_iff_true, if_true]
  split
  · rename_i run t heq
    rw [hbr] at heq
    simp at heq
  · rfl

theorem spanScan_delim_empty {d : Char} {rest t : List Char}
    (hbr : breakAt d rest = some ([], t)) :
    spanScan d (d :: rest) = d :: spanScan d rest := by
  rw [spanScan]
  simp only [eq_self_iff_true, if_true]
  split
  · rename_i run t' heq
    rw [hbr] at heq
    cases heq
    rfl
  · rename_i heq
    rw [hbr] at heq

theorem spanScan_delim_run {d x : Char} {rest run t : List Char}
    (hbr : breakAt d rest = some (x :: run, t)) :
    spanScan d (d :: rest) = (x :: run) ++ spanScan d t := by
  rw [spanScan]
  simp only [eq_self_iff_true, if_true]
  split
  · rename_i run' t' heq
    rw [hbr] at heq
    cases heq
    rfl
  · rename_i heq
    rw [hbr] at heq
    simp at heq

/-- Rust `str::replace(dd, "")` for a doubled character `d`:
remove every non-overlapping occurrence, left to right. -/
def removePair (d : Char) : List Char → List Char
  | [] => []
  | [c] => [c]
  | c1 :: c2 :: rest =>
    if c1 = d ∧ c2 = d then removePair d rest
    else c1 :: removePair d (c2 :: rest)

/-- Rust `str::replace(d, "")` for a single character: remove every
occurrence. -/
def removeChar (d : Char) (s : List Char) : List Char :=
  s.filter (fun c => c ≠ d)

/-- Replace every maximal run of characters satisfying `p` by the single
character `rep` (for `p = isWS`, `rep = ' '` this is the
`whitespace_re.replace_all(&result, " ")` pass). -/
def collapseRuns (p : Char → Bool) (rep : Char) : List Char → List Char
  | [] => []
  | [c] => if p c then [rep] else [c]
  | c1 :: c2 :: rest =>
    if p c1 ∧ p c2 then collapseRuns p rep (c2 :: rest)
    else (if p c1 then rep else c1) :: collapseRuns p rep (c2 :: rest)

/-- The whitespace-collapsing pass: `\s+` → a single space. -/
def collapseWs (s : List Char) : List Char :=
  collapseRuns isWS ' ' s

/-- `sanitize_commit_message` from src/ai/mod.rs, as the composition of
its passes in source order: trim; unwrap a fenced code block; strip bold
`**`/`__`; strip italic `*`; strip italic `_`; strip inline code
backticks; literal `replace("**","")`, `replace("__","")`,
`replace("*","")`, `replace("_","")`; collapse whitespace runs to one
space; trim. -/
def sanitize_commit_message (s : List Char) : List Char :=
  rustTrim (collapseWs (removeChar '_' (removeChar '*' (removePair '_'
    (removePair '*' (spanScan btick (spanScan '_' (spanScan '*'
      (boldScan (codeBlockPass (rustTrim s)))))))))))

/-! Character-origin lemmas: every pass only keeps characters of its
input, except whitespace collapsing, which may introduce a space. -/

theorem mem_dropTrailingIf {p : Char → Bool} {a : Char} {s : List Char}
    (h : a ∈ dropTrailingIf p s) : a ∈ s := by
  induction s with
  | nil => simp [dropTrailingIf] at h
  | cons c rest ih =>
    rw [dropTrailingIf] at h
    split at h
    · split at h <;> simp_all
    · rename_i x r hr
      rw [List.mem_cons] at h ⊢
      rcases h with h | h
      · exact Or.inl h
      · refine Or.inr (ih ?_)
        rw [hr]
        exact h

theorem mem_dropWhile {p : Char → Bool} {a : Char} {s : List Char}
    (h : a ∈ s.dropWhile p) : a ∈ s := by
  induction s with
  | nil => simp_all
  | cons c rest ih =>
    rw [List.dropWhile_cons] at h
    split at h
    · exact List.mem_cons_of_mem _ (ih h)
    · exact h

theorem mem_rustTrim {a : Char} {s : List Char}
    (h : a ∈ rustTrim s) : a ∈ s :=
  mem_dropWhile (mem_dropTrailingIf h)

theorem splitTicks_eq {s b u : List Char}
    (h : splitTicks s = some (b, u)) :
    s = b ++ btick :: btick :: btick :: u := by
  induction s using splitTicks.induct generalizing b with
  | case1 c1 c2 c3 rest h3 =>
    rw [splitTicks, if_pos h3] at h
    simp only [Option.some.injEq, Prod.mk.injEq] at h
    simp [← h.1, ← h.2, h3.1, h3.2.1, h3.2.2]
  | case2 c1 c2 c3 rest h3 ih =>
    rw [splitTicks, if_neg h3] at h
    simp only [Option.map_eq_some'] at h
    obtain ⟨⟨b', u'⟩, hp, h1⟩ := h
    simp only [Prod.mk.injEq] at h1
    obtain ⟨h1, h2⟩ := h1
    subst h2
    simp [← h1, ih hp]
  | case3 t ht =>
    match t, h with
    | [], h => simp [splitTicks] at h
    | [c1], h => simp [splitTicks] at h
    | [c1, c2], h => simp [splitTicks] at h
    | c1 :: c2 :: c3 :: rest, h => exact absurd rfl (ht c1 c2 c3 rest)

theorem mem_codeBlockPass {a : Char} {s : List Char}
    (h : a ∈ codeBlockPass s) : a ∈ s := by
  unfold codeBlockPass at h
  split at h
  · exact h
  · rename_i b u hu
    split at h
    · exact h
    · rename_i g w hg
      have hga : a ∈ g := mem_rustTrim h
      have h2 : a ∈ (u.dropWhile isWordChar).dropWhile isWS := by
        rw [splitTicks_eq hg]
        simp [hga]
      have h3 : a ∈ u := mem_dropWhile (mem_dropWhile h2)
      rw [splitTicks_eq hu]
      simp [h3]

theorem mem_boldClose {d a : Char} {s run t2 : List Char}
    (h : boldClose d s = some (run, t2)) (ha : a ∈ run ∨ a ∈ t2) : a ∈ s := by
  unfold boldClose at h
  split at h
  · rename_i r c3 t hbr
    split at h
    · simp only [Option.some.injEq, Prod.mk.injEq] at h
      obtain ⟨h1, h2⟩ := h
      subst h1; subst h2
      rw [breakAt_eq hbr]
      rcases ha with ha | ha <;> simp [ha]
    · simp at h
  · simp at h

theorem mem_boldScan {a : Char} {s : List Char}
    (h : a ∈ boldScan s) : a ∈ s := by
  induction s using boldScan.induct with
  | case1 => simp [boldScan_nil] at h
  | case2 rest2 run t2 hbc ih =>
    rw [boldScan_star_some hbc] at h
    rcases List.mem_append.1 h with h | h
    · exact List.mem_cons_of_mem _ (List.mem_cons_of_mem _
        (mem_boldClose hbc (Or.inl h)))
    · exact List.mem_cons_of_mem _ (List.mem_cons_of_mem _
        (mem_boldClose hbc (Or.inr (ih h))))
  | case3 rest2 hbc ih =>
    rw [boldScan_star_none hbc] at h
    rcases List.mem_cons.1 h with h | h
    · simp [h]
    · exact List.mem_cons_of_mem _ (ih h)
  | case4 c2 rest2 h2 ih =>
    rw [boldScan_star_other h2] at h
    rcases List.mem_cons.1 h with h | h
    · simp [h]
    · exact List.mem_cons_of_mem _ (ih h)
  | case5 => simpa [boldScan_single_star] using h
  | case6 rest2 run t2 hbc hne ih =>
    rw [boldScan_und_some hbc] at h
    rcases List.mem_append.1 h with h | h
    · exact List.mem_cons_of_mem _ (List.mem_cons_of_mem _
        (mem_boldClose hbc (Or.inl h)))
    · exact List.mem_cons_of_mem _ (List.mem_cons_of_mem _
        (mem_boldClose hbc (Or.inr (ih h))))
  | case7 rest2 hbc hne ih =>
    rw [boldScan_und_none hbc] at h
    rcases List.mem_cons.1 h with h | h
    · simp [h]
    · exact List.mem_cons_of_mem _ (ih h)
  | case8 c2 rest2 h2 hne ih =>
    rw [boldScan_und_other h2] at h
    rcases List.mem_cons.1 h with h | h
    · simp [h]
    · exact List.mem_cons_of_mem _ (ih h)
  | case9 hne => simpa [boldScan_single_und] using h
  | case10 x r hx hx2 ih =>
    rw [boldScan_other hx hx2] at h
    rcases List.mem_cons.1 h with h | h
    · simp [h]
    · exact List.mem_cons_of_mem _ (ih h)

theorem mem_spanScan {d a : Char} {s : List Char}
    (h : a ∈ spanScan d s) : a ∈ s := by
  induction s using spanScan.induct d with
  | case1 => simp [spanScan_nil] at h
  | case2 rest t hbr _ ih =>
    rw [spanScan_delim_empty hbr] at h
    rcases List.mem_cons.1 h with h | h
    · simp [h]
    · exact List.mem_cons_of_mem _ (ih h)
  | case3 rest t x run hbr _ ih =>
    rw [spanScan_delim_run hbr] at h
    rw [breakAt_eq hbr]
    simp only [List.mem_append, List.mem_cons] at h ⊢
    rcases h with h | h
    · tauto
    · have := ih h
      tauto
  | case4 rest hbr ih =>
    rw [spanScan_delim_none hbr] at h
    rcases List.mem_cons.1 h with h | h
    · simp [h]
    · exact List.mem_cons_of_mem _ (ih h)
  | case5 x r hx ih =>
    rw [spanScan_other hx] at h
    rcases List.mem_cons.1 h with h | h
    · simp [h]
    · exact List.mem_cons_of_mem _ (ih h)

theorem mem_removePair {d a : Char} {s : List Char}
    (h : a ∈ removePair d s) : a ∈ s := by
  induction s using removePair.induct d with
  | case1 => simp [removePair] at h
  | case2 c => simp [removePair] at h; simp [h]
  | case3 c1 c2 rest hd ih =>
    rw [removePair, if_pos hd] at h
    exact List.mem_cons_of_mem _ (List.mem_cons_of_mem _ (ih h))
  | case4 c1 c2 rest hd ih =>
    rw [removePair, if_neg hd] at h
    rcases List.mem_cons.1 h with h | h
    · simp [h]
    · exact List.mem_cons_of_mem _ (ih h)

theorem mem_removeChar {d a : Char} {s : List Char}
    (h : a ∈ removeChar d s) : a ∈ s :=
  List.mem_of_mem_filter h

theorem removeChar_not_mem {d : Char} {s : List Char} :
    d ∉ removeChar d s := by
  intro h
  have := List.of_mem_filter h
  simp at this

theorem mem_collapseRuns {p : Char → Bool} {rep a : Char} {s : List Char}
    (h : a ∈ collapseRuns p rep s) : a ∈ s ∨ a = rep := by
  induction s using collapseRuns.induct p rep with
  | case1 => simp [collapseRuns] at h
  | case2 c hc => rw [collapseRuns, if_pos hc] at h; simp_all
  | case3 c hc => rw [collapseRuns, if_neg hc] at h; simp_all
  | case4 c1 c2 rest hp ih =>
    rw [collapseRuns, if_pos hp] at h
    rcases ih h with h | h
    · exact Or.inl (List.mem_cons_of_mem _ h)
    · exact Or.inr h
  | case5 c1 c2 rest hp ih =>
    rw [collapseRuns, if_neg hp] at h
    rcases List.mem_cons.1 h with h | h
    · subst h
      split
      · exact Or.inr rfl
      · exact Or.inl (by simp)
    · rcases ih h with h | h
      · exact Or.inl (List.mem_cons_of_mem _ h)
      · exact Or.inr h

theorem mem_collapseWs {a : Char} {s : List Char}
    (h : a ∈ collapseWs s) : a ∈ s ∨ a = ' ' :=
  mem_collapseRuns h

/-- Every character of a sanitized message is a character of the input
or a space introduced by whitespace collapsing. -/
theorem mem_sanitize {a : Char} {s : List Char}
    (h : a ∈ sanitize_commit_message s) : a ∈ s ∨ a = ' ' := by
  unfold sanitize_commit_message at h
  have h1 := mem_rustTrim h
  rcases mem_collapseWs h1 with h2 | h2
  · exact Or.imp (fun hx => mem_rustTrim (mem_codeBlockPass (mem_boldScan
      (mem_spanScan (mem_spanScan (mem_spanScan (mem_removePair
        (mem_removePair (mem_removeChar (mem_removeChar hx))))))))))
      id (Or.inl h2)
  · exact Or.inr h2

/-- After the literal `replace` passes, collapsing and trimming, no
asterisk survives in the sanitizer's output. -/
theorem sanitize_no_star {s : List Char} :
    '*' ∉ sanitize_commit_message s := by
  intro h
  unfold sanitize_commit_message at h
  rcases mem_collapseWs (mem_rustTrim h) with h2 | h2
  · exact removeChar_not_mem (mem_removeChar h2)
  · simp at h2

/-- No underscore survives in the sanitizer's output. -/
theorem sanitize_no_underscore {s : List Char} :
    '_' ∉ sanitize_commit_message s := by
  intro h
  unfold sanitize_commit_message at h
  rcases mem_collapseWs (mem_rustTrim h) with h2 | h2
  · exact removeChar_not_mem h2
  · simp at h2

/-! Normal forms of whitespace (and, later, hyphen) runs: after a
collapsing pass, every character satisfying `p` equals `rep` and no two
adjacent characters satisfy `p`. -/

/-- The head, when present, does not satisfy `p`. -/
def headNotP (p : Char → Bool) : List Char → Bool
  | [] => true
  | c :: _ => !p c

/-- The last character, when present, does not satisfy `p`. -/
def lastNotP (p : Char → Bool) : List Char → Bool
  | [] => true
  | [c] => !p c
  | _ :: c2 :: rest => lastNotP p (c2 :: rest)

/-- Run-normal form: every character satisfying `p` equals `rep` and is
not followed by another character satisfying `p`. -/
def runNormB (p : Char → Bool) (rep : Char) : List Char → Bool
  | [] => true
  | c :: l => (!p c || (c == rep && headNotP p l)) && runNormB p rep l

theorem runNormB_tail {p : Char → Bool} {rep c : Char} {l : List Char}
    (h : runNormB p rep (c :: l) = true) : runNormB p rep l = true := by
  rw [runNormB, Bool.and_eq_true] at h
  exact h.2

theorem collapseRuns_headNot {p : Char → Bool} {rep c : Char}
    {t : List Char} (hc : ¬p c = true) :
    headNotP p (collapseRuns p rep (c :: t)) = true := by
  match t with
  | [] => rw [collapseRuns, if_neg hc]; simp [headNotP, hc]
  | c2 :: rest =>
    rw [collapseRuns, if_neg (by simp [hc])]
    simp [headNotP, hc]

theorem runNormB_collapseRuns {p : Char → Bool} {rep : Char}
    (hrep : p rep = true) (s : List Char) :
    runNormB p rep (collapseRuns p rep s) = true := by
  induction s using collapseRuns.induct p rep with
  | case1 => simp [collapseRuns, runNormB]
  | case2 c hc =>
    rw [collapseRuns, if_pos hc]
    simp [runNormB, headNotP, hrep]
  | case3 c hc =>
    rw [collapseRuns, if_neg hc]
    simp [runNormB, headNotP, hc]
  | case4 c1 c2 rest hp ih =>
    rw [collapseRuns, if_pos hp]
    exact ih
  | case5 c1 c2 rest hp ih =>
    rw [collapseRuns, if_neg hp]
    rw [runNormB, Bool.and_eq_true]
    refine ⟨?_, ih⟩
    by_cases h1 : p c1 = true
    · have h2 : ¬p c2 = true := fun h2 => hp ⟨h1, h2⟩
      simp only [if_pos h1]
      simp [hrep, collapseRuns_headNot h2]
    · simp [if_neg h1, h1]

theorem collapseRuns_eq_self {p : Char → Bool} {rep : Char} {s : List Char}
    (h : runNormB p rep s = true) : collapseRuns p rep s = s := by
  induction s using collapseRuns.induct p rep with
  | case1 => rw [collapseRuns]
  | case2 c hc =>
    rw [collapseRuns, if_pos hc]
    simp [runNormB, headNotP, hc] at h
    simp [h]
  | case3 c hc => rw [collapseRuns, if_neg hc]
  | case4 c1 c2 rest hp ih =>
    exfalso
    rw [runNormB, Bool.and_eq_true] at h
    have := h.1
    simp [hp.1, hp.2, headNotP] at this
  | case5 c1 c2 rest hp ih =>
    rw [collapseRuns, if_neg hp, ih (runNormB_tail h)]
    rw [runNormB, Bool.and_eq_true] at h
    by_cases h1 : p c1 = true
    · have := h.1
      simp [h1] at this
      simp [if_pos h1, this.1]
    · simp [if_neg h1]

theorem runNormB_dropWhile {p q : Char → Bool} {rep : Char} {s : List Char}
    (h : runNormB p rep s = true) :
    runNormB p rep (s.dropWhile q) = true := by
  induction s with
  | nil => simpa using h
  | cons c rest ih =>
    rw [List.dropWhile_cons]
    split
    · exact ih (runNormB_tail h)
    · exact h

theorem dropTrailingIf_head {q : Char → Bool} {s t : List Char} {x : Char}
    (h : dropTrailingIf q s = x :: t) : s.head? = some x := by
  match s with
  | [] => simp [dropTrailingIf] at h
  | c :: rest =>
    rw [dropTrailingIf] at h
    split at h
    · split at h <;> simp_all
    · simp_all

theorem runNormB_dropTrailingIf {p q : Char → Bool} {rep : Char}
    {s : List Char} (h : runNormB p rep s = true) :
    runNormB p rep (dropTrailingIf q s) = true := by
  induction s with
  | nil => simpa [dropTrailingIf] using h
  | cons c rest ih =>
    rw [dropTrailingIf]
    have hc : (!p c || (c == rep && headNotP p rest)) = true := by
      rw [runNormB, Bool.and_eq_true] at h
      exact h.1
    split
    · split
      · simp [runNormB]
      · rw [runNormB, Bool.and_eq_true]
        refine ⟨?_, by simp [runNormB]⟩
        rw [Bool.or_eq_true] at hc
        rcases hc with h1 | h1
        · simp [h1]
        · rw [Bool.and_eq_true] at h1
          simp [h1.1, headNotP]
    · rename_i x r hr
      rw [runNormB, Bool.and_eq_true]
      have ht := ih (runNormB_tail h)
      rw [hr] at ht
      refine ⟨?_, ht⟩
      rw [Bool.or_eq_true] at hc
      rcases hc with h1 | h1
      · simp [h1]
      · have hx : rest.head? = some x := dropTrailingIf_head hr
        have hstep : headNotP p rest = true → headNotP p (x :: r) = true := by
          match rest, hx with
          | c2 :: rest2, hx =>
            simp only [List.head?_cons, Option.some.injEq] at hx
            subst hx
            simp [headNotP]
        rw [Bool.and_eq_true] at h1
        simp [h1.1, hstep h1.2]

theorem headNotP_dropWhile (p : Char → Bool) (s : List Char) :
    headNotP p (s.dropWhile p) = true := by
  induction s with
  | nil => simp [headNotP]
  | cons c rest ih =>
    rw [List.dropWhile_cons]
    split
    · exact ih
    · simp_all [headNotP]

theorem lastNotP_dropTrailingIf (p : Char → Bool) (s : List Char) :
    lastNotP p (dropTrailingIf p s) = true := by
  induction s with
  | nil => simp [dropTrailingIf, lastNotP]
  | cons c rest ih =>
    rw [dropTrailingIf]
    split
    · split
      · simp [lastNotP]
      · simp_all [lastNotP]
    · rename_i x r hr
      rw [hr] at ih
      simpa [lastNotP] using ih

theorem headNotP_dropTrailingIf {p q : Char → Bool} {s : List Char}
    (h : headNotP p s = true) :
    headNotP p (dropTrailingIf q s) = true := by
  match hr : dropTrailingIf q s with
  | [] => simp [headNotP]
  | x :: r =>
    have := dropTrailingIf_head hr
    match s, this with
    | c :: rest, this =>
      simp only [List.head?_cons, Option.some.injEq] at this
      subst this
      simpa [headNotP] using h

theorem dropWhile_eq_self {p : Char → Bool} {s : List Char}
    (h : headNotP p s = true) : s.dropWhile p = s := by
  match s with
  | [] => rfl
  | c :: rest =>
    simp only [headNotP, Bool.not_eq_true'] at h
    simp [List.dropWhile_cons, h]

theorem dropTrailingIf_eq_self {p : Char → Bool} {s : List Char}
    (h : lastNotP p s = true) : dropTrailingIf p s = s := by
  induction s with
  | nil => rfl
  | cons c rest ih =>
    rw [dropTrailingIf]
    match rest, h, ih with
    | [], h, ih =>
      simp only [lastNotP, Bool.not_eq_true'] at h
      simp [dropTrailingIf, h]
    | c2 :: rest2, h, ih =>
      have h2 : lastNotP p (c2 :: rest2) = true := by
        simpa [lastNotP] using h
      rw [ih h2]

theorem headNotP_rustTrim (s : List Char) :
    headNotP isWS (rustTrim s) = true :=
  headNotP_dropTrailingIf (headNotP_dropWhile isWS s)

theorem lastNotP_rustTrim (s : List Char) :
    lastNotP isWS (rustTrim s) = true :=
  lastNotP_dropTrailingIf isWS _

theorem rustTrim_eq_self {s : List Char} (h1 : headNotP isWS s = true)
    (h2 : lastNotP isWS s = true) : rustTrim s = s := by
  unfold rustTrim
  rw [dropWhile_eq_self h1, dropTrailingIf_eq_self h2]

theorem runNormB_rustTrim {s : List Char}
    (h : runNormB isWS ' ' s = true) :
    runNormB isWS ' ' (rustTrim s) = true :=
  runNormB_dropTrailingIf (runNormB_dropWhile h)

/-! Identity of each pass on strings free of its trigger characters. -/

theorem splitTicks_none_of_no_btick {s : List Char} (h : btick ∉ s) :
    splitTicks s = none := by
  induction s using splitTicks.induct with
  | case1 c1 c2 c3 rest h3 =>
    exfalso
    exact h (by simp [h3.1])
  | case2 c1 c2 c3 rest h3 ih =>
    rw [splitTicks, if_neg h3, ih (fun hm => h (List.mem_cons_of_mem _ hm))]
    rfl
  | case3 t ht =>
    match t, ht with
    | [], _ => rfl
    | [c1], _ => rfl
    | [c1, c2], _ => rfl
    | c1 :: c2 :: c3 :: rest, ht => exact absurd rfl (ht c1 c2 c3 rest)

theorem codeBlockPass_eq_self {s : List Char} (h : btick ∉ s) :
    codeBlockPass s = s := by
  unfold codeBlockPass
  rw [splitTicks_none_of_no_btick h]

theorem boldScan_eq_self {s : List Char} (h1 : '*' ∉ s) (h2 : '_' ∉ s) :
    boldScan s = s := by
  induction s with
  | nil => exact boldScan_nil
  | cons c rest ih =>
    have hc1 : c ≠ '*' := fun hc => h1 (by simp [hc])
    have hc2 : c ≠ '_' := fun hc => h2 (by simp [hc])
    rw [boldScan_other hc1 hc2,
      ih (fun hm => h1 (List.mem_cons_of_mem _ hm))
         (fun hm => h2 (List.mem_cons_of_mem _ hm))]

theorem spanScan_eq_self {d : Char} {s : List Char} (h : d ∉ s) :
    spanScan d s = s := by
  induction s with
  | nil => exact spanScan_nil
  | cons c rest ih =>
    have hc : c ≠ d := fun hc => h (by simp [hc])
    rw [spanScan_other hc, ih (fun hm => h (List.mem_cons_of_mem _ hm))]

theorem removePair_eq_self {d : Char} {s : List Char} (h : d ∉ s) :
    removePair d s = s := by
  induction s using removePair.induct d with
  | case1 => rfl
  | case2 c => rfl
  | case3 c1 c2 rest hd ih =>
    exact absurd (by simp [hd.1]) h
  | case4 c1 c2 rest hd ih =>
    rw [removePair, if_neg hd, ih (fun hm => h (List.mem_cons_of_mem _ hm))]

theorem removeChar_eq_self {d : Char} {s : List Char} (h : d ∉ s) :
    removeChar d s = s := by
  unfold removeChar
  apply List.filter_eq_self.2
  intro a ha
  simp only [ne_eq, decide_eq_true_eq]
  exact fun had => h (had ▸ ha)

/-- No backtick appears in the sanitizer's output unless the input had
one: sanitization never introduces backticks. -/
theorem sanitize_no_btick {s : List Char} (h : btick ∉ s) :
    btick ∉ sanitize_commit_message s := by
  intro hm
  rcases mem_sanitize hm with h2 | h2
  · exact h h2
  · simp [btick] at h2

/-- The sanitizer's output is in whitespace run-normal form: every
whitespace character is a single space not followed by whitespace. -/
theorem sanitize_runNorm (s : List Char) :
    runNormB isWS ' ' (sanitize_commit_message s) = true := by
  unfold sanitize_commit_message
  exact runNormB_rustTrim (runNormB_collapseRuns (by decide) _)

theorem sanitize_headNot (s : List Char) :
    headNotP isWS (sanitize_commit_message s) = true := by
  unfold sanitize_commit_message
  exact headNotP_rustTrim _

theorem sanitize_lastNot (s : List Char) :
    lastNotP isWS (sanitize_commit_message s) = true := by
  unfold sanitize_commit_message
  exact lastNotP_rustTrim _

/-- A string already free of markdown marker characters, trimmed and in
whitespace run-normal form is a fixed point of the sanitizer. -/
theorem sanitize_eq_self {y : List Char} (hs : '*' ∉ y) (hu : '_' ∉ y)
    (hb : btick ∉ y) (hn : runNormB isWS ' ' y = true)
    (hh : headNotP isWS y = true) (hl : lastNotP isWS y = true) :
    sanitize_commit_message y = y := by
  unfold sanitize_commit_message
  rw [rustTrim_eq_self hh hl, codeBlockPass_eq_self hb,
    boldScan_eq_self hs hu, spanScan_eq_self hs, spanScan_eq_self hu,
    spanScan_eq_self hb, removePair_eq_self hs, removePair_eq_self hu,
    removeChar_eq_self hs, removeChar_eq_self hu]
  unfold collapseWs
  rw [collapseRuns_eq_self hn, rustTrim_eq_self hh hl]

/-! Claim C1: idempotence of the commit-message sanitizer. -/

/-- C1 counterexample: on the five-character input
backtick backtick `a` backtick backtick the sanitizer returns
backtick `a` backtick (the regex pairs backticks leftmost, leaving two
strays around `a`), and sanitizing that output again strips the
now-paired backticks, so `sanitize (sanitize x) ≠ sanitize x`. -/
theorem sanitize_commit_message_not_idempotent :
    sanitize_commit_message [btick, btick, 'a', btick, btick] =
      [btick, 'a', btick] ∧
    sanitize_commit_message [btick, 'a', btick] = ['a'] ∧
    decide (([btick, 'a', btick] : List Char) = ['a']) = false := by
  refine ⟨?_, ?_, by decide⟩
  · simp [sanitize_commit_message, btick, rustTrim, dropTrailingIf, isWS,
      codeBlockPass, splitTicks, boldScan, spanScan, boldClose,
      breakAt, removePair, removeChar, collapseWs, collapseRuns]
  · simp [sanitize_commit_message, btick, rustTrim, dropTrailingIf, isWS,
      codeBlockPass, splitTicks, boldScan, spanScan, boldClose,
      breakAt, removePair, removeChar, collapseWs, collapseRuns]

/-- C1 (amended): `sanitize_commit_message` is idempotent on every input
that contains no backtick.  (On inputs with unpaired backticks a second
application can pair up backticks left as strays by the first, see the
counterexample.) -/
theorem sanitize_commit_message_idempotent_no_btick (s : List Char)
    (h : btick ∉ s) :
    sanitize_commit_message (sanitize_commit_message s) =
      sanitize_commit_message s :=
  sanitize_eq_self sanitize_no_star sanitize_no_underscore
    (sanitize_no_btick h) (sanitize_runNorm s) (sanitize_headNot s)
    (sanitize_lastNot s)

/-- C1 witness: the amended idempotence applied at the concrete
backtick-free input `**ok**`. -/
theorem sanitize_commit_message_idempotent_no_btick_witness :
    btick ∉ ['*', '*', 'o', 'k', '*', '*'] ∧
    sanitize_commit_message
        (sanitize_commit_message ['*', '*', 'o', 'k', '*', '*']) =
      sanitize_commit_message ['*', '*', 'o', 'k', '*', '*'] :=
  ⟨by decide,
   sanitize_commit_message_idempotent_no_btick _ (by decide)⟩

/-! Claim C6: marker characters in the sanitizer's output. -/

/-- C6 counterexample: on input `a` backtick `b` the single unpaired
backtick survives sanitization, so the output is not free of backtick
characters. -/
theorem sanitize_commit_message_leaves_stray_btick :
    sanitize_commit_message ['a', btick, 'b'] = ['a', btick, 'b'] ∧
    btick ∈ sanitize_commit_message ['a', btick, 'b'] := by
  have h : sanitize_commit_message ['a', btick, 'b'] = ['a', btick, 'b'] := by
    simp [sanitize_commit_message, btick, rustTrim, dropTrailingIf, isWS,
      codeBlockPass, splitTicks, boldScan, spanScan, boldClose,
      breakAt, removePair, removeChar, collapseWs, collapseRuns]
  exact ⟨h, by rw [h]; simp⟩

/-- C6 (amended): for every input, the sanitizer's output contains no
asterisk and no underscore (the literal `replace` passes remove them
all); stray backticks, however, can survive when unpaired. -/
theorem sanitize_commit_message_no_star_no_underscore (s : List Char) :
    '*' ∉ sanitize_commit_message s ∧ '_' ∉ sanitize_commit_message s :=
  ⟨sanitize_no_star, sanitize_no_underscore⟩

/-! Claim C5: sanitization of marker-free inputs. -/

/-- C5 counterexample: on the marker-free input `a␣␣b` (two inner
spaces) the sanitizer collapses the run to one space, so its output
differs from the input's trim. -/
theorem sanitize_commit_message_ne_trim :
    sanitize_commit_message ['a', ' ', ' ', 'b'] = ['a', ' ', 'b'] ∧
    rustTrim ['a', ' ', ' ', 'b'] = ['a', ' ', ' ', 'b'] ∧
    decide ((['a', ' ', 'b'] : List Char) = ['a', ' ', ' ', 'b']) = false := by
  refine ⟨?_, by decide, by decide⟩
  simp [sanitize_commit_message, btick, rustTrim, dropTrailingIf, isWS,
    codeBlockPass, splitTicks, boldScan, spanScan, boldClose,
    breakAt, removePair, removeChar, collapseWs, collapseRuns]

/-- C5 (amended): on inputs free of the markdown markers asterisk,
underscore and backtick, `sanitize_commit_message` equals trimming
composed with collapsing each whitespace run to a single space (the
claim's plain `trim` differs exactly by that collapsing, see the
counterexample). -/
theorem sanitize_commit_message_of_no_markers (s : List Char)
    (h1 : '*' ∉ s) (h2 : '_' ∉ s) (h3 : btick ∉ s) :
    sanitize_commit_message s = rustTrim (collapseWs (rustTrim s)) := by
  have h1' : '*' ∉ rustTrim s := fun hm => h1 (mem_rustTrim hm)
  have h2' : '_' ∉ rustTrim s := fun hm => h2 (mem_rustTrim hm)
  have h3' : btick ∉ rustTrim s := fun hm => h3 (mem_rustTrim hm)
  unfold sanitize_commit_message
  rw [codeBlockPass_eq_self h3', boldScan_eq_self h1' h2',
    spanScan_eq_self h1', spanScan_eq_self h2', spanScan_eq_self h3',
    removePair_eq_self h1', removePair_eq_self h2',
    removeChar_eq_self h1', removeChar_eq_self h2']

/-- C5 witness: the amended equation applied at the concrete marker-free
input `fix␣␣up`. -/
theorem sanitize_commit_message_of_no_markers_witness :
    '*' ∉ ['f', 'i', 'x', ' ', ' ', 'u', 'p'] ∧
    '_' ∉ ['f', 'i', 'x', ' ', ' ', 'u', 'p'] ∧
    btick ∉ ['f', 'i', 'x', ' ', ' ', 'u', 'p'] ∧
    sanitize_commit_message ['f', 'i', 'x', ' ', ' ', 'u', 'p'] =
      rustTrim (collapseWs (rustTrim ['f', 'i', 'x', ' ', ' ', 'u', 'p'])) :=
  ⟨by decide, by decide, by decide,
   sanitize_commit_message_of_no_markers _ (by decide) (by decide)
     (by decide)⟩

/-! The diff compressor `smart_truncate_diff` of src/git.rs.  Rust
measures strings in UTF-8 bytes and byte-slices them; the model keeps
strings as `List Char` and recovers byte positions through the UTF-8
width of each scalar value.  The hard-cut slice `&diff[0..7500]` panics
when byte 7500 is not a character boundary; the model returns `none`
there. -/

/-- UTF-8 encoded width in bytes of one Unicode scalar value. -/
def charBytes (c : Char) : Nat :=
  if c.toNat < 0x80 then 1
  else if c.toNat < 0x800 then 2
  else if c.toNat < 0x10000 then 3
  else 4

/-- Rust `str::len`: the UTF-8 byte length. -/
def utf8Len (s : List Char) : Nat :=
  (s.map charBytes).sum

/-- Rust byte slice `&s[0..n]`: `some` prefix when byte `n` falls on a
character boundary, `none` (a panic) otherwise. -/
def byteTake (n : Nat) : List Char → Option (List Char)
  | [] => if n = 0 then some [] else none
  | c :: rest =>
    if n = 0 then some []
    else if charBytes c ≤ n then
      (byteTake (n - charBytes c) rest).map (fun p => c :: p)
    else none

/-- Split at every occurrence of the character `d` (Rust
`str::split('\n')`-like; keeps empty segments). -/
def splitChar (d : Char) : List Char → List (List Char)
  | [] => [[]]
  | c :: rest =>
    if c = d then [] :: splitChar d rest
    else
      match splitChar d rest with
      | [] => [[c]]
      | h :: t => (c :: h) :: t

/-- Strip one trailing carriage return (Rust `lines()` treats a
carriage return followed by a line feed as one line ending). -/
def dropTrailCR (l : List Char) : List Char :=
  match l.getLast? with
  | some c => if c = '\r' then l.dropLast else l
  | none => l

/-- Post-process the segments of a newline split the way Rust
`lines()` does: every segment but the last was terminated by a line
feed, so one trailing carriage return is stripped from it; a final
empty segment (input ending in a newline, or empty input) yields no
line, and a final nonempty segment is kept verbatim (a lone trailing
carriage return is not a line ending). -/
def linesMap : List (List Char) → List (List Char)
  | [] => []
  | [l] => if l = [] then [] else [l]
  | l :: l2 :: rest => dropTrailCR l :: linesMap (l2 :: rest)

/-- Rust `str::lines`. -/
def linesOf (s : List Char) : List (List Char) :=
  linesMap (splitChar '\n' s)

/-- Rust `str::split` with a string pattern: split at every
non-overlapping occurrence, leftmost first. -/
def splitOnSub (pat : List Char) (s : List Char) : List (List Char) :=
  match s with
  | [] => [[]]
  | c :: rest =>
    if hp : pat ≠ [] ∧ pat.isPrefixOf (c :: rest) then
      [] :: splitOnSub pat ((c :: rest).drop pat.length)
    else
      match splitOnSub pat rest with
      | [] => [[c]]
      | h :: t => (c :: h) :: t
  termination_by s.length
  decreasing_by
  · have hp1 := hp.1
    have hplen : 1 ≤ pat.length := by
      cases pat with
      | nil => simp at hp1
      | cons a l => simp
    simp
    omega
  · simp

/-- Whether `pat` occurs as a contiguous substring. -/
def containsSub (pat : List Char) : List Char → Bool
  | [] => pat.isPrefixOf []
  | c :: rest => pat.isPrefixOf (c :: rest) || containsSub pat rest

/-- The per-file marker of a unified diff. -/
def diffMarker : List Char := "diff --git".toList

/-- The hard-cut suffix appended by the fallback branch. -/
def truncSuffix : List Char := "... [truncated - diff too large]".toList

/-- The budget constant `MAX_DIFF_SIZE` of src/git.rs. -/
def MAX_DIFF_SIZE : Nat := 15000

/-- The chunk-marker line inserted before a sampled chunk body. -/
def truncMarkLine : List Char := "...[truncated]...\n".toList

/-- One iteration of the `for chunk in diff.split("diff --git").skip(1)`
loop of `smart_truncate_diff`: the text the iteration appends to
`important_parts` — the marker, the chunk's first five lines, and for
chunks of more than twenty lines a truncation mark plus three lines
from the chunk's midpoint. -/
def chunkEmit (chunk : List Char) : List Char :=
  let ls := linesOf chunk
  let mid := ls.length / 2
  diffMarker ++
    (ls.take (min 5 ls.length)).foldr (fun l r => l ++ '\n' :: r) [] ++
    (if 20 < ls.length then
      truncMarkLine ++
        ((ls.drop mid).take (min (mid + 3) ls.length - mid)).foldr
          (fun l r => l ++ '\n' :: r) []
    else [])

/-- The loop proper: append each chunk's emitted text and stop as soon
as the accumulated text exceeds half the budget. -/
def accumChunks : List (List Char) → List Char → List Char
  | [], acc => acc
  | chunk :: rest, acc =>
    if MAX_DIFF_SIZE / 2 < utf8Len (acc ++ chunkEmit chunk) then
      acc ++ chunkEmit chunk
    else accumChunks rest (acc ++ chunkEmit chunk)

/-- `smart_truncate_diff` of src/git.rs.  Returns `none` exactly when
the Rust code panics (the hard-cut byte slice `&diff[0..MAX_DIFF_SIZE/2]`
lands inside a multi-byte character). -/
def smart_truncate_diff (diff : List Char) : Option (List Char) :=
  if utf8Len diff ≤ MAX_DIFF_SIZE then some diff
  else if utf8Len (accumChunks ((splitOnSub diffMarker diff).drop 1) [])
      < MAX_DIFF_SIZE then
    some (accumChunks ((splitOnSub diffMarker diff).drop 1) [])
  else (byteTake (MAX_DIFF_SIZE / 2) diff).map (fun p => p ++ truncSuffix)

theorem utf8Len_nil : utf8Len [] = 0 := rfl

theorem utf8Len_cons (c : Char) (l : List Char) :
    utf8Len (c :: l) = charBytes c + utf8Len l := by
  simp [utf8Len]

theorem utf8Len_append (a b : List Char) :
    utf8Len (a ++ b) = utf8Len a + utf8Len b := by
  simp [utf8Len]

theorem utf8Len_replicate (n : Nat) (c : Char) :
    utf8Len (List.replicate n c) = n * charBytes c := by
  induction n with
  | zero => simp [utf8Len]
  | succ k ih =>
    rw [List.replicate_succ, utf8Len_cons, ih]
    ring

theorem charBytes_pos (c : Char) : 1 ≤ charBytes c := by
  unfold charBytes
  split
  · omega
  · split
    · omega
    · split <;> omega

theorem byteTake_utf8Len {n : Nat} {s p : List Char}
    (h : byteTake n s = some p) : utf8Len p = n := by
  induction s generalizing n p with
  | nil =>
    rw [byteTake] at h
    split at h <;> simp_all [utf8Len]
  | cons c rest ih =>
    rw [byteTake] at h
    split at h
    · rename_i h0
      simp only [Option.some.injEq] at h
      simp [← h, utf8Len, h0]
    · split at h
      · simp only [Option.map_eq_some'] at h
        obtain ⟨p', hp, hpp⟩ := h
        subst hpp
        rw [utf8Len_cons, ih hp]
        omega
      · simp at h

theorem byteTake_zero (s : List Char) : byteTake 0 s = some [] := by
  cases s <;> simp [byteTake]

theorem byteTake_append {a : List Char} {n : Nat} (b : List Char)
    (h : utf8Len a ≤ n) :
    byteTake n (a ++ b) = (byteTake (n - utf8Len a) b).map (fun p => a ++ p) := by
  induction a generalizing n with
  | nil =>
    simp only [List.nil_append, utf8Len_nil, Nat.sub_zero]
    cases byteTake n b <;> simp
  | cons c a' ih =>
    rw [utf8Len_cons] at h
    have hc := charBytes_pos c
    have hn : ¬n = 0 := by omega
    rw [List.cons_append, byteTake, if_neg hn, if_pos (by omega),
      ih (by omega)]
    have harith : n - utf8Len (c :: a') = n - charBytes c - utf8Len a' := by
      rw [utf8Len_cons]
      omega
    rw [harith]
    cases byteTake (n - charBytes c - utf8Len a') b with
    | none => simp
    | some p => simp

theorem byteTake_replicate_glyph_none {k m : Nat} (h : m % 4 = 1) :
    byteTake m (List.replicate k '𝄞') = none := by
  induction k generalizing m with
  | zero =>
    simp only [List.replicate_zero, byteTake]
    split
    · omega
    · rfl
  | succ j ih =>
    rw [List.replicate_succ, byteTake]
    rw [if_neg (by omega)]
    have hg : charBytes '𝄞' = 4 := by decide
    split
    · rw [ih (by omega)]
      rfl
    · rfl

theorem byteTake_replicate_glyph {n k : Nat} (h : n ≤ k) :
    byteTake (4 * n) (List.replicate k '𝄞') = some (List.replicate n '𝄞') := by
  induction n generalizing k with
  | zero => simp [byteTake_zero]
  | succ j ih =>
    match k, h with
    | m + 1, h =>
      rw [List.replicate_succ, byteTake]
      rw [if_neg (by omega)]
      have hg : charBytes '𝄞' = 4 := by decide
      rw [if_pos (by omega), hg]
      have : 4 * (j + 1) - 4 = 4 * j := by omega
      rw [this, ih (by omega)]
      simp [List.replicate_succ]

theorem containsSub_eq_false {c : Char} {pr s : List Char} (h : c ∉ s) :
    containsSub (c :: pr) s = false := by
  induction s with
  | nil => simp [containsSub, List.isPrefixOf]
  | cons x rest ih =>
    have hx : c ≠ x := fun he => h (by simp [he])
    rw [containsSub, Bool.or_eq_false_iff]
    refine ⟨?_, ih (fun hm => h (List.mem_cons_of_mem _ hm))⟩
    simp [List.isPrefixOf, hx]

theorem splitOnSub_of_not_contains {pat s : List Char}
    (h : containsSub pat s = false) : splitOnSub pat s = [s] := by
  induction s with
  | nil => rw [splitOnSub]
  | cons c rest ih =>
    rw [containsSub, Bool.or_eq_false_iff] at h
    rw [splitOnSub, dif_neg (fun hp => by simp [hp.2] at h)]
    rw [ih h.2]

/-- A diff longer than the budget with no per-file marker: the loop
body never runs, the accumulator stays empty, and the empty string is
returned (its length 0 is below the budget, so the hard cut is not
reached). -/
theorem smart_truncate_diff_of_no_marker {d : List Char}
    (h1 : MAX_DIFF_SIZE < utf8Len d)
    (h2 : containsSub diffMarker d = false) :
    smart_truncate_diff d = some [] := by
  unfold smart_truncate_diff
  rw [if_neg (by omega), splitOnSub_of_not_contains h2]
  simp [accumChunks, utf8Len, MAX_DIFF_SIZE]

theorem containsSub_diffMarker_false {s : List Char} (h : 'd' ∉ s) :
    containsSub diffMarker s = false := by
  have hm : diffMarker = 'd' :: "iff --git".toList := rfl
  rw [hm]
  exact containsSub_eq_false h

theorem dChar_not_mem_replicate (n : Nat) : 'd' ∉ List.replicate n '𝄞' := by
  intro hm
  rw [List.mem_replicate] at hm
  exact absurd hm.2 (by decide)

/-! Claim C2: the compressed diff fits the byte budget. -/

/-- C2: for every diff longer than the 15000-byte budget, whenever
`smart_truncate_diff` returns (it is a total function of the model, so
it always terminates; `none` is the hard-cut panic treated by C3), the
returned string is at most 15000 bytes: the accumulator branch requires
`utf8Len parts < MAX_DIFF_SIZE`, and the hard-cut branch returns exactly
`MAX_DIFF_SIZE / 2` bytes plus the 32-byte truncation suffix. -/
theorem smart_truncate_diff_within_budget (d r : List Char)
    (h1 : MAX_DIFF_SIZE < utf8Len d)
    (h2 : smart_truncate_diff d = some r) :
    utf8Len r ≤ MAX_DIFF_SIZE := by
  unfold smart_truncate_diff at h2
  rw [if_neg (by omega)] at h2
  split at h2
  · rename_i hlt
    simp only [Option.some.injEq] at h2
    subst h2
    omega
  · simp only [Option.map_eq_some'] at h2
    obtain ⟨p, hp, hr⟩ := h2
    subst hr
    rw [utf8Len_append, byteTake_utf8Len hp]
    have : utf8Len truncSuffix = 32 := by decide
    rw [this]
    decide

/-- C2 witness: the bound applied at a concrete marker-free diff of
3751 four-byte characters (15004 bytes), which compresses to the empty
string. -/
theorem smart_truncate_diff_within_budget_witness :
    MAX_DIFF_SIZE < utf8Len (List.replicate 3751 '𝄞') ∧
    smart_truncate_diff (List.replicate 3751 '𝄞') = some [] ∧
    utf8Len [] ≤ MAX_DIFF_SIZE := by
  have h1 : MAX_DIFF_SIZE < utf8Len (List.replicate 3751 '𝄞') := by
    rw [utf8Len_replicate]
    decide
  have h2 : smart_truncate_diff (List.replicate 3751 '𝄞') = some [] :=
    smart_truncate_diff_of_no_marker h1
      (containsSub_diffMarker_false (dChar_not_mem_replicate _))
  exact ⟨h1, h2, smart_truncate_diff_within_budget _ _ h1 h2⟩

/-! Claim C4: over-budget diffs without a per-file marker. -/

/-- C4 counterexample: a 15200-byte diff of 3800 four-byte characters
contains no `diff --git` marker; the code returns the empty string,
while the hard cut predicted by the claim would return the first 7500
bytes (1875 characters) followed by the 32-character truncation suffix
— a 1907-character string, not the empty one. -/
theorem smart_truncate_diff_no_marker_not_hard_cut :
    smart_truncate_diff (List.replicate 3800 '𝄞') = some [] ∧
    (byteTake (MAX_DIFF_SIZE / 2) (List.replicate 3800 '𝄞')).map
        (fun p => p ++ truncSuffix) =
      some (List.replicate 1875 '𝄞' ++ truncSuffix) ∧
    (List.replicate 1875 '𝄞' ++ truncSuffix).length = 1907 ∧
    ([] : List Char).length = 0 := by
  have hts : truncSuffix.length = 32 := by decide
  refine ⟨?_, ?_,
    by rw [List.length_append, List.length_replicate, hts], rfl⟩
  · have h1 : MAX_DIFF_SIZE < utf8Len (List.replicate 3800 '𝄞') := by
      rw [utf8Len_replicate]
      decide
    exact smart_truncate_diff_of_no_marker h1
      (containsSub_diffMarker_false (dChar_not_mem_replicate _))
  · have : (MAX_DIFF_SIZE / 2 : Nat) = 4 * 1875 := by decide
    rw [this, byteTake_replicate_glyph (by omega)]
    rfl

/-- C4 (amended): for every diff longer than 15000 bytes that contains
no `diff --git` marker, compression returns the empty string — the
split-skip loop runs zero iterations and the empty accumulator (length
0 < 15000) is returned, so the hard-cut path is never taken. -/
theorem smart_truncate_diff_no_marker_empty (d : List Char)
    (h1 : MAX_DIFF_SIZE < utf8Len d)
    (h2 : containsSub diffMarker d = false) :
    smart_truncate_diff d = some [] :=
  smart_truncate_diff_of_no_marker h1 h2

/-- C4 witness: the amended claim applied at a concrete 15040-byte
marker-free diff. -/
theorem smart_truncate_diff_no_marker_empty_witness :
    MAX_DIFF_SIZE < utf8Len (List.replicate 3760 '𝄞') ∧
    containsSub diffMarker (List.replicate 3760 '𝄞') = false ∧
    smart_truncate_diff (List.replicate 3760 '𝄞') = some [] := by
  have h1 : MAX_DIFF_SIZE < utf8Len (List.replicate 3760 '𝄞') := by
    rw [utf8Len_replicate]
    decide
  have h2 : containsSub diffMarker (List.replicate 3760 '𝄞') = false :=
    containsSub_diffMarker_false (dChar_not_mem_replicate _)
  exact ⟨h1, h2, smart_truncate_diff_no_marker_empty _ h1 h2⟩

/-! Claim C3: the hard cut can panic on multi-byte input. -/

theorem splitChar_of_not_mem {d : Char} {s : List Char} (h : d ∉ s) :
    splitChar d s = [s] := by
  induction s with
  | nil => rfl
  | cons c rest ih =>
    have hc : c ≠ d := fun he => h (by simp [he])
    rw [splitChar, if_neg hc, ih (fun hm => h (List.mem_cons_of_mem _ hm))]

theorem splitOnSub_append_self {pat t : List Char} (h : pat ≠ []) :
    splitOnSub pat (pat ++ t) = [] :: splitOnSub pat t := by
  match pat, h with
  | p0 :: pr, _ =>
    rw [List.cons_append, splitOnSub,
      dif_pos ⟨by simp, List.isPrefixOf_iff_prefix.2 (by
        rw [← List.cons_append]; exact List.prefix_append _ _)⟩]
    rw [← List.cons_append, List.drop_left]

theorem not_mem_glyph_tail {c : Char} (hca : c ≠ 'a') (hcg : c ≠ '𝄞')
    (n : Nat) : c ∉ 'a' :: List.replicate n '𝄞' := by
  intro hm
  rcases List.mem_cons.1 hm with hm | hm
  · exact hca hm
  · rw [List.mem_replicate] at hm
    exact hcg hm.2

theorem linesOf_glyph_tail :
    linesOf ('a' :: List.replicate 3800 '𝄞') =
      ['a' :: List.replicate 3800 '𝄞'] := by
  unfold linesOf
  rw [splitChar_of_not_mem (not_mem_glyph_tail (by decide) (by decide) 3800)]
  rw [linesMap, if_neg (List.cons_ne_nil _ _)]

theorem accumChunks_singleton (c : List Char) (acc : List Char) :
    accumChunks [c] acc = acc ++ chunkEmit c := by
  rw [accumChunks]
  split
  · rfl
  · rw [accumChunks]

theorem chunkEmit_glyph :
    chunkEmit ('a' :: List.replicate 3800 '𝄞') =
      diffMarker ++ ('a' :: List.replicate 3800 '𝄞' ++ ['\n']) := by
  simp only [chunkEmit, linesOf_glyph_tail, List.length_singleton]
  rw [if_neg (by omega), List.append_nil]
  rfl

/-- C3: `smart_truncate_diff` panics (returns `none` in the model) on a
concrete over-budget UTF-8 diff: one chunk whose single 15212-byte line
forces the accumulator past the budget, and whose byte 7500 falls inside
a four-byte character, so the hard-cut slice `&diff[0..7500]` is not on
a character boundary. -/
theorem smart_truncate_diff_panics_on_multibyte :
    smart_truncate_diff
      (diffMarker ++ 'a' :: List.replicate 3800 '𝄞') = none := by
  have ht : utf8Len ('a' :: List.replicate 3800 '𝄞') = 15201 := by
    rw [utf8Len_cons, utf8Len_replicate]
    decide
  have hd : utf8Len (diffMarker ++ 'a' :: List.replicate 3800 '𝄞') = 15211 := by
    rw [utf8Len_append, ht]
    decide
  have hsplit : splitOnSub diffMarker
      (diffMarker ++ 'a' :: List.replicate 3800 '𝄞') =
      [[], 'a' :: List.replicate 3800 '𝄞'] := by
    rw [splitOnSub_append_self (by decide),
      splitOnSub_of_not_contains (containsSub_diffMarker_false
        (not_mem_glyph_tail (by decide) (by decide) 3800))]
  have hacc : accumChunks ['a' :: List.replicate 3800 '𝄞'] [] =
      diffMarker ++ ('a' :: List.replicate 3800 '𝄞' ++ ['\n']) := by
    rw [accumChunks_singleton, chunkEmit_glyph, List.nil_append]
  have hparts : utf8Len
      (diffMarker ++ ('a' :: List.replicate 3800 '𝄞' ++ ['\n'])) = 15212 := by
    rw [utf8Len_append, utf8Len_append, ht]
    decide
  unfold smart_truncate_diff
  rw [if_neg (by rw [hd]; decide), hsplit]
  simp only [List.drop_succ_cons, List.drop_zero]
  rw [hacc]
  rw [if_neg (by rw [hparts]; decide)]
  have hassoc : diffMarker ++ 'a' :: List.replicate 3800 '𝄞' =
      (diffMarker ++ ['a']) ++ List.replicate 3800 '𝄞' := by
    rw [List.append_assoc]
    rfl
  rw [hassoc, byteTake_append _ (by decide)]
  have h11 : utf8Len (diffMarker ++ ['a']) = 11 := by decide
  rw [h11]
  rw [byteTake_replicate_glyph_none (by decide)]
  rfl

/-! The provider gateways of src/ai.  The HTTP exchange and JSON
(de)serialization are external I/O; a gateway call is modelled as a
function of the exchange's outcome (`HttpResult`): transport failure,
or a response with its status, raw body text, and — for the gateway's
schema — the body's parse outcome.  Everything after the `send().await`
of the Rust code is modelled faithfully. -/

/-- The error taxonomy of src/error.rs. -/
inductive SageError where
  | gitNoStagedChanges
  | gitNoChanges
  | gitStagingFailed (details : List Char)
  | gitCommitFailed (details : List Char)
  | gitPushFailed (details : List Char)
  | gitDiffFailed (details : List Char)
  | configInvalidJson (details : List Char)
  | configApiKeyNotSet (provider : List Char)
  | configProviderNotFound (provider : List Char)
  | configProviderNotConfigured (provider : List Char)
  | configHomeDirNotFound
  | apiNetworkError (provider details : List Char)
  | apiAuthError (provider : List Char)
  | apiResponseError (provider details : List Char)
  | apiNoResponse (provider : List Char)
  | apiUnsupportedProvider (provider : List Char)
  | ioError (details : List Char)
  | editorFailed
  | invalidInput (details : List Char)
  deriving DecidableEq

/-- Token usage of src/ai/mod.rs. -/
structure TokenUsage where
  input_tokens : Nat
  output_tokens : Nat
  total_tokens : Nat
  deriving DecidableEq

/-- Normalized gateway response of src/ai/mod.rs. -/
structure AiResponse where
  message : List Char
  usage : TokenUsage
  deriving DecidableEq

/-- Per-provider credentials of src/config.rs. -/
structure ProviderConfig where
  api_key : List Char
  model : Option (List Char)
  deriving DecidableEq

/-- The configuration of src/config.rs (preferences omitted: nothing in
the generation pipeline reads them). -/
structure Config where
  active_provider : List Char
  providers : List (List Char × ProviderConfig)
  max_tokens : Option Nat
  default_style : Option (List Char)
  deriving DecidableEq

/-- Outcome of one HTTP POST: `sendError` models a failed
`send().await`; `response` carries the status code, the raw body text
and, for 2xx handling, the parse outcome of the body against the
gateway's schema (`Except` holds the serde error message on failure). -/
inductive HttpResult (α : Type) where
  | sendError (details : List Char)
  | response (status : Nat) (body : List Char) (parsed : Except (List Char) α)

/-- `reqwest::StatusCode::is_success`: 200–299. -/
def statusIsSuccess (n : Nat) : Bool :=
  200 ≤ n && n < 300

structure OpenAIMessage where
  role : List Char
  content : List Char

structure OpenAIChoice where
  message : OpenAIMessage

structure OpenAIUsage where
  prompt_tokens : Nat
  completion_tokens : Nat
  total_tokens : Nat

structure OpenAIResponse where
  choices : List OpenAIChoice
  usage : OpenAIUsage

structure ClaudeResponseContent where
  content_type : List Char
  text : List Char

structure ClaudeUsage where
  input_tokens : Nat
  output_tokens : Nat

structure ClaudeResponse where
  content : List ClaudeResponseContent
  usage : ClaudeUsage

/-- `call_openai_api` of src/ai/openai.rs, from the `send().await`
result onward: transport failure becomes a network error; non-2xx
status becomes an auth error for 401/403 and a response error carrying
the body otherwise; a 2xx body that fails to parse becomes a response
error; a parsed body yields the first choice's content, trimmed then
markdown-sanitized, with the usage fields copied, or a no-response
error when `choices` is empty. -/
def call_openai_api (t : HttpResult OpenAIResponse) :
    Except SageError AiResponse :=
  match t with
  | .sendError e => .error (.apiNetworkError "OpenAI".toList e)
  | .response status body parsed =>
    if ¬statusIsSuccess status then
      if status = 401 ∨ status = 403 then
        .error (.apiAuthError "OpenAI".toList)
      else .error (.apiResponseError "OpenAI".toList body)
    else
      match parsed with
      | .error e =>
        .error (.apiResponseError "OpenAI".toList
          ("Failed to parse response: ".toList ++ e))
      | .ok data =>
        match data.choices.head? with
        | some choice =>
          .ok { message := sanitize_commit_message
                  (rustTrim choice.message.content),
                usage := { input_tokens := data.usage.prompt_tokens,
                           output_tokens := data.usage.completion_tokens,
                           total_tokens := data.usage.total_tokens } }
        | none => .error (.apiNoResponse "OpenAI".toList)

/-- `call_claude_api` of src/ai/claude.rs, from the `send().await`
result onward: like the OpenAI variant for failures; a parsed body
yields the first content block's text, only trimmed (no markdown
sanitization), when the block's type tag is "text", with
`total_tokens = input_tokens + output_tokens`; otherwise a no-response
error. -/
def call_claude_api (t : HttpResult ClaudeResponse) :
    Except SageError AiResponse :=
  match t with
  | .sendError e => .error (.apiNetworkError "Claude".toList e)
  | .response status body parsed =>
    if ¬statusIsSuccess status then
      if status = 401 ∨ status = 403 then
        .error (.apiAuthError "Claude".toList)
      else .error (.apiResponseError "Claude".toList body)
    else
      match parsed with
      | .error e =>
        .error (.apiResponseError "Claude".toList
          ("Failed to parse response: ".toList ++ e))
      | .ok data =>
        match data.content.head? with
        | some c =>
          if c.content_type = "text".toList then
            .ok { message := rustTrim c.text,
                  usage := { input_tokens := data.usage.input_tokens,
                             output_tokens := data.usage.output_tokens,
                             total_tokens := data.usage.input_tokens +
                               data.usage.output_tokens } }
          else .error (.apiNoResponse "Claude".toList)
        | none => .error (.apiNoResponse "Claude".toList)

/-- `Config::get_active_provider_config` of src/config.rs: look the
active provider up in the provider map, fail when absent or when its
API key is empty. -/
def get_active_provider_config (c : Config) :
    Except SageError (List Char × ProviderConfig) :=
  match c.providers.lookup c.active_provider with
  | none => .error (.configProviderNotFound c.active_provider)
  | some pc =>
    if pc.api_key = [] then .error (.configApiKeyNotSet c.active_provider)
    else .ok (c.active_provider, pc)

/-- `call_ai` of src/ai/mod.rs: resolve the active provider's
credentials, then dispatch on the provider name; any name other than
"openai" and "claude" is an unsupported-provider error.  The two
gateway exchanges are passed as oracle values: the result's independence
from them expresses that the unsupported branch performs no network
activity. -/
def call_ai (c : Config) (tOpen : HttpResult OpenAIResponse)
    (tClaude : HttpResult ClaudeResponse) : Except SageError AiResponse :=
  match get_active_provider_config c with
  | .error e => .error e
  | .ok (name, _pc) =>
    if name = "openai".toList then call_openai_api tOpen
    else if name = "claude".toList then call_claude_api tClaude
    else .error (.apiUnsupportedProvider name)

/-! Claim C7: 401 and 403 always surface as auth errors. -/

/-- C7: for both provider variants, an HTTP response with status 401 or
403 — whatever the body and however it would parse — yields exactly the
auth error tagged with that provider's name, never a network or
response error. -/
theorem provider_auth_error_on_401_403 :
    (∀ (body : List Char) (parsed : Except (List Char) OpenAIResponse),
      call_openai_api (.response 401 body parsed) =
        .error (.apiAuthError "OpenAI".toList)) ∧
    (∀ (body : List Char) (parsed : Except (List Char) OpenAIResponse),
      call_openai_api (.response 403 body parsed) =
        .error (.apiAuthError "OpenAI".toList)) ∧
    (∀ (body : List Char) (parsed : Except (List Char) ClaudeResponse),
      call_claude_api (.response 401 body parsed) =
        .error (.apiAuthError "Claude".toList)) ∧
    (∀ (body : List Char) (parsed : Except (List Char) ClaudeResponse),
      call_claude_api (.response 403 body parsed) =
        .error (.apiAuthError "Claude".toList)) := by
  refine ⟨fun body parsed => ?_, fun body parsed => ?_,
    fun body parsed => ?_, fun body parsed => ?_⟩ <;>
    simp [call_openai_api, call_claude_api, statusIsSuccess]

/-! Claim C8: unknown providers fail before any network activity. -/

/-- C8: when the active provider resolves to configured credentials but
its name is neither "openai" nor "claude", `call_ai` returns the
unsupported-provider error carrying that name — for every possible
outcome of both gateway exchanges, i.e. without consulting the network
at all. -/
theorem call_ai_unsupported_provider (c : Config) (pc : ProviderConfig)
    (tOpen : HttpResult OpenAIResponse) (tClaude : HttpResult ClaudeResponse)
    (hlook : c.providers.lookup c.active_provider = some pc)
    (hkey : pc.api_key ≠ [])
    (h1 : c.active_provider ≠ "openai".toList)
    (h2 : c.active_provider ≠ "claude".toList) :
    call_ai c tOpen tClaude =
      .error (.apiUnsupportedProvider c.active_provider) := by
  unfold call_ai get_active_provider_config
  rw [hlook]
  simp only [if_neg hkey]
  rw [if_neg h1, if_neg h2]

/-- C8 witness: a configured "gemini" provider, with arbitrary concrete
gateway outcomes, is rejected as unsupported. -/
theorem call_ai_unsupported_provider_witness :
    (Config.mk "gemini".toList
        [("gemini".toList, ProviderConfig.mk "k".toList none)]
        none none).providers.lookup
      (Config.mk "gemini".toList
        [("gemini".toList, ProviderConfig.mk "k".toList none)]
        none none).active_provider =
      some (ProviderConfig.mk "k".toList none) ∧
    (ProviderConfig.mk "k".toList none).api_key ≠ [] ∧
    call_ai (Config.mk "gemini".toList
        [("gemini".toList, ProviderConfig.mk "k".toList none)]
        none none)
      (.sendError []) (.sendError []) =
      .error (.apiUnsupportedProvider "gemini".toList) := by
  refine ⟨by decide, by decide, ?_⟩
  exact call_ai_unsupported_provider _ (ProviderConfig.mk "k".toList none)
    _ _ (by decide) (by decide) (by decide) (by decide)

/-! Claim C10: asymmetric post-processing of parsed responses. -/

/-- C10: on a successfully parsed 2xx response, the OpenAI gateway
returns the first choice's content trimmed and then markdown-sanitized,
while the Claude gateway returns the first "text" block's content only
trimmed — no sanitization; the concrete block text `**fix**` survives
the Claude path verbatim although sanitizing it would strip the
asterisks. -/
theorem gateway_message_asymmetry :
    (∀ (choice : OpenAIChoice) (rest : List OpenAIChoice)
       (u : OpenAIUsage) (body : List Char),
      call_openai_api (.response 200 body (.ok ⟨choice :: rest, u⟩)) =
        .ok { message := sanitize_commit_message
                (rustTrim choice.message.content),
              usage := { input_tokens := u.prompt_tokens,
                         output_tokens := u.completion_tokens,
                         total_tokens := u.total_tokens } }) ∧
    (∀ (t : List Char) (rest : List ClaudeResponseContent)
       (u : ClaudeUsage) (body : List Char),
      call_claude_api (.response 200 body
          (.ok ⟨⟨"text".toList, t⟩ :: rest, u⟩)) =
        .ok { message := rustTrim t,
              usage := { input_tokens := u.input_tokens,
                         output_tokens := u.output_tokens,
                         total_tokens := u.input_tokens +
                           u.output_tokens } }) ∧
    rustTrim "**fix**".toList = "**fix**".toList ∧
    sanitize_commit_message "**fix**".toList = "fix".toList := by
  refine ⟨fun choice rest u body => ?_, fun t rest u body => ?_, ?_, ?_⟩
  · simp [call_openai_api, statusIsSuccess]
  · simp [call_claude_api, statusIsSuccess]
  · decide
  · simp [sanitize_commit_message, btick, rustTrim, dropTrailingIf, isWS,
      codeBlockPass, splitTicks, boldScan, spanScan, boldClose,
      breakAt, removePair, removeChar, collapseWs, collapseRuns]

/-! Claim C9: branch-name sanitization.  The repository's sources
contain only the CLI declaration of the `branch` subcommand
(src/cli.rs); the sanitization itself is not under src/, so it is
modelled from the spec. -/

/-- An ASCII alphanumeric character. -/
def isAsciiAlphanum (c : Char) : Bool :=
  (65 ≤ c.toNat && c.toNat ≤ 90) || (97 ≤ c.toNat && c.toNat ≤ 122) ||
  (48 ≤ c.toNat && c.toNat ≤ 57)

/-- A character allowed in a branch name: lowercase ASCII letter,
digit, hyphen or slash. -/
def isBranchChar (c : Char) : Bool :=
  (97 ≤ c.toNat && c.toNat ≤ 122) || (48 ≤ c.toNat && c.toNat ≤ 57) ||
  c == '-' || c == '/'

/-- Modelled from the spec: the branch-name sanitization variant is
absent from src/ (only the CLI `branch` subcommand declaration exists);
§4.4 describes it as "collapse spaces and underscores to hyphens, strip
all characters except alphanumerics/hyphen/slash, lowercase, collapse
repeated hyphens, trim leading/trailing hyphens", realized here in that
order (alphanumerics read as ASCII, forced by the spec's own output
class of lowercase alphanumerics, hyphen and slash). -/
def sanitize_branch_name (s : List Char) : List Char :=
  dropTrailingIf (fun c => c == '-')
    ((collapseRuns (fun c => c == '-') '-'
      (((s.map (fun c => if c = ' ' ∨ c = '_' then '-' else c)).filter
          (fun c => isAsciiAlphanum c || c == '-' || c == '/')).map
        Char.toLower)).dropWhile (fun c => c == '-'))

theorem toNat_ofNat_lt {n : Nat} (h : n < 55296) :
    (Char.ofNat n).toNat = n := by
  unfold Char.ofNat
  rw [dif_pos (Or.inl h)]
  simp [Char.ofNatAux, Char.toNat, UInt32.toNat]

theorem toLower_branchChar {c : Char}
    (h : (isAsciiAlphanum c || c == '-' || c == '/') = true) :
    isBranchChar (Char.toLower c) = true := by
  by_cases hd : c = '-'
  · subst hd; decide
  by_cases hs : c = '/'
  · subst hs; decide
  have ha : isAsciiAlphanum c = true := by
    simp only [Bool.or_eq_true, beq_iff_eq] at h
    rcases h with (h | h) | h
    · exact h
    · exact absurd h hd
    · exact absurd h hs
  unfold Char.toLower
  simp only [isAsciiAlphanum, Bool.or_eq_true, Bool.and_eq_true,
    decide_eq_true_eq] at ha
  by_cases hc : c.toNat ≥ 65 ∧ c.toNat ≤ 90
  · rw [if_pos hc]
    have hv : c.toNat + 32 < 55296 := by omega
    simp only [isBranchChar, Bool.or_eq_true, Bool.and_eq_true,
      decide_eq_true_eq, toNat_ofNat_lt hv]
    left; left; left
    omega
  · rw [if_neg hc]
    simp only [isBranchChar, Bool.or_eq_true, Bool.and_eq_true,
      decide_eq_true_eq]
    rcases ha with (h | h) | h
    · exact absurd h hc
    · left; left; left; omega
    · left; left; right; omega

theorem mem_branch_pipeline {a : Char} {s : List Char}
    (h : a ∈ sanitize_branch_name s) : isBranchChar a = true := by
  unfold sanitize_branch_name at h
  have h1 := mem_dropWhile (mem_dropTrailingIf h)
  rcases mem_collapseRuns h1 with h2 | h2
  · rcases List.mem_map.1 h2 with ⟨b, hb, hba⟩
    have hkeep := List.of_mem_filter hb
    subst hba
    exact toLower_branchChar hkeep
  · subst h2
    decide

theorem not_contains_dd_of_runNorm {s : List Char}
    (h : runNormB (fun c => c == '-') '-' s = true) :
    containsSub ['-', '-'] s = false := by
  induction s with
  | nil => decide
  | cons c rest ih =>
    rw [containsSub, Bool.or_eq_false_iff]
    refine ⟨?_, ih (runNormB_tail h)⟩
    rw [runNormB, Bool.and_eq_true] at h
    have h1 := h.1
    by_cases hc : c = '-'
    · subst hc
      simp only [beq_self_eq_true, Bool.not_true, Bool.false_or,
        Bool.and_eq_true] at h1
      match rest, h1 with
      | [], _ => decide
      | c2 :: rest2, h1 =>
        have h2 : (c2 == '-') = false := by
          have := h1.2
          simp only [headNotP, Bool.not_eq_true'] at this
          exact this
        have h3 : ('-' == c2) = false := by
          rw [beq_eq_false_iff_ne] at h2 ⊢
          exact fun he => h2 he.symm
        simp [List.isPrefixOf, h3]
    · have h3 : ('-' == c) = false := by
        rw [beq_eq_false_iff_ne]
        exact fun he => hc he.symm
      simp [List.isPrefixOf, h3]

/-- C9: for every input, the branch-name sanitizer's output consists
only of lowercase ASCII alphanumerics, hyphens and slashes (the
spec's regular-expression class), contains no repeated hyphens, and neither starts nor
ends with a hyphen. -/
theorem sanitize_branch_name_wellformed (s : List Char) :
    (sanitize_branch_name s).all isBranchChar = true ∧
    containsSub ['-', '-'] (sanitize_branch_name s) = false ∧
    headNotP (fun c => c == '-') (sanitize_branch_name s) = true ∧
    lastNotP (fun c => c == '-') (sanitize_branch_name s) = true := by
  refine ⟨?_, ?_, ?_, ?_⟩
  · rw [List.all_eq_true]
    exact fun a ha => mem_branch_pipeline ha
  · exact not_contains_dd_of_runNorm
      (runNormB_dropTrailingIf (runNormB_dropWhile
        (runNormB_collapseRuns (by decide) _)))
  · exact headNotP_dropTrailingIf (headNotP_dropWhile _ _)
  · exact lastNotP_dropTrailingIf _ _
